import Mathlib

/-!
Verification development for the jigify repository (src/jigify.py and
src/jigconfig.py).  The Python code is shallowly embedded: pure helpers
become Lean functions over rational coordinates, the configuration
resolver becomes functions over association lists returning
`Except String`, and calls into external geometry libraries
(scipy convex hull, tripy area, shapely buffer) are abstracted as a
`Geom` oracle record, together with one concrete executable instance
used for witnesses and counterexamples.
-/

/-- XY point in board-plane millimeters (floats in the source are modelled
as rationals). -/
abbrev Pt2 := ℚ × ℚ

/-- A mesh vertex `(x, y, z)`; `p.1 = x`, `p.2.1 = y`, `p.2.2 = z`. -/
abbrev Pt3 := ℚ × ℚ × ℚ

/-- Oracle for the external geometry libraries used by jigify.py:
`convexHull` stands for `scipy.spatial.ConvexHull` (returning the hull
vertices), `area` for `tripy.earclip` plus
`tripy.calculate_total_area` (and equally for `shapely` polygon `.area`),
and `buffer` for `shapely.Polygon.buffer` followed by taking
`exterior.coords`.  Theorems quantified over `g : Geom` hold for the
control flow of the embedded code no matter how the geometry library
behaves; concrete evaluations use the executable `sqGeom` below. -/
structure Geom where
  convexHull : List Pt2 → List Pt2
  area : List Pt2 → ℚ
  buffer : List Pt2 → ℚ → List Pt2

/-- Embeds the offset search loop of `expand_small_hole`
(src/jigify.py lines 183-190): try offsets `(k+1)/10` for the given `k`
values in order, return the first buffered polygon whose area reaches
`printable_threshold`, and `none` when no offset in the list succeeds
(in Python the loop then falls through and keeps `poly_verts`). -/
def offset_search (g : Geom) (printable_threshold : ℚ) (poly_verts : List Pt2) :
    List Nat → Option (List Pt2)
  | [] => none
  | k :: rest =>
    let offset_val : ℚ := (k + 1) / 10
    let offset_poly := g.buffer poly_verts offset_val
    if printable_threshold ≤ g.area offset_poly then some offset_poly
    else offset_search g printable_threshold poly_verts rest

/-- Embeds `expand_small_hole(poly_verts, area=None)`
(src/jigify.py lines 171-191).  `printable_threshold` is the
configuration value `cfg[\x7b3dprinter\x7d][min_printable_hole_area]`
passed explicitly.  When `area` is `none` it is computed from the
polygon as in the Python default branch. -/
def expand_small_hole (g : Geom) (printable_threshold : ℚ)
    (poly_verts : List Pt2) (area? : Option ℚ) : List Pt2 :=
  let area := match area? with
    | none => g.area poly_verts
    | some a => a
  if area < printable_threshold then
    match offset_search g printable_threshold poly_verts (List.range 10) with
    | some offset_poly => offset_poly
    | none => poly_verts
  else poly_verts

/-- One Z-bin of `gen_fitting_pockets` (src/jigify.py lines 227-253):
the starting (highest) Z of the bin, the list of Z values grouped into
it, and the mesh vertices at those Z values.  The Python initial value
`verts = None` is modelled by the empty list (`None` is only ever
replaced, never read, once the first Z value joins the bin). -/
structure ZBin where
  start_z : ℚ
  z_list : List ℚ
  verts : List Pt3
deriving DecidableEq, Inhabited

/-- One retained step of the step-well ("fitting") pocket
(src/jigify.py lines 261-303).  `rawHull` additionally records the
convex hull before `expand_small_hole` was applied to it (the Python
code computes exactly this value in `hull_verts` before overwriting
it); `area` is the recorded area of `rawHull`, as in the source. -/
structure HullBin where
  hull : List Pt2
  rawHull : List Pt2
  area : ℚ
  z_list : List ℚ
  start_z : ℚ
  end_z : ℚ
deriving DecidableEq, Inhabited

/-- The distinct mesh Z values sorted in descending order
(src/jigify.py lines 221-225: `np.unique`, `sort`, reverse slice). -/
def descZ (mesh : List Pt3) : List ℚ :=
  (((mesh.map fun p => p.2.2).dedup).insertionSort (· ≤ ·)).reverse

/-- One iteration of the Z-binning loop of `gen_fitting_pockets`
(src/jigify.py lines 234-253).  The accumulator holds the bins in
reverse construction order, so its head is the Python `z_bins[-1]`. -/
def zbinStep (z_bin_size : ℚ) (mesh : List Pt3) (acc : List ZBin) (z_val : ℚ) :
    List ZBin :=
  let result := mesh.filter fun p => decide (p.2.2 = z_val)
  match acc with
  | [] => []
  | last :: rest =>
    if last.start_z - z_val < z_bin_size then
      { last with verts := last.verts ++ result, z_list := last.z_list ++ [z_val] } :: rest
    else
      ⟨z_val, [z_val], result⟩ :: last :: rest

/-- The Z-binning phase of `gen_fitting_pockets` (src/jigify.py lines
227-253), returning the bins in construction order (top Z first).  In
Python the seed bin is `\x7bstart_z: reverse_z[0], z_list: [], verts:
None\x7d`; an empty mesh would crash there (`reverse_z[0]`), modelled
by returning the empty list. -/
def mk_z_bins (mesh : List Pt3) (z_bin_size : ℚ) : List ZBin :=
  match descZ mesh with
  | [] => []
  | z0 :: _ => ((descZ mesh).foldl (zbinStep z_bin_size mesh) [⟨z0, [], []⟩]).reverse

/-- One iteration of the hull accumulation loop of `gen_fitting_pockets`
(src/jigify.py lines 261-288).  The accumulator holds the retained hull
bins in reverse construction order (head = Python `hull_bins[-1]`),
which is exactly the order the Python code produces after its final
`hull_bins.reverse()`. -/
def hullStep (g : Geom) (printable_threshold : ℚ) (acc : List HullBin)
    (this_bin : ZBin) : List HullBin :=
  let points_xy := (this_bin.verts.map fun p => (p.1, p.2.1)) ++
    (match acc with | [] => [] | hb :: _ => hb.hull)
  let hull_verts := g.convexHull points_xy
  let area := g.area hull_verts
  let expanded := expand_small_hole g printable_threshold hull_verts (some area)
  match acc with
  | [] => [⟨expanded, hull_verts, area, this_bin.z_list, 0, 0⟩]
  | hb :: rest =>
    if hb.area + 1 < area then
      ⟨expanded, hull_verts, area, this_bin.z_list, 0, 0⟩ :: hb :: rest
    else
      { hb with z_list := hb.z_list ++ this_bin.z_list } :: rest

/-- The hull accumulation phase of `gen_fitting_pockets` (src/jigify.py
lines 261-292), including the trailing `hull_bins.reverse()`: the head
of the result is the lowest (board-level, widest) step. -/
def mk_hull_bins (g : Geom) (printable_threshold : ℚ) (zbins : List ZBin) :
    List HullBin :=
  zbins.foldl (hullStep g printable_threshold) []

/-- The final loop of `gen_fitting_pockets` (src/jigify.py lines
294-300): sort each z_list ascending in place, set `start_z` of the
first bin to its lowest Z and of every later bin to the last (largest)
entry of the previous, already sorted, z_list, and set `end_z` to the
largest Z of the bin itself.  The first argument carries the sorted
z_list of the previous bin. -/
def assignZ : Option (List ℚ) → List HullBin → List HullBin
  | _, [] => []
  | prev?, hb :: rest =>
    let zl := hb.z_list.insertionSort (· ≤ ·)
    let s := match prev? with
      | none => zl.headD 0
      | some pz => pz.getLastD 0
    { hb with z_list := zl, start_z := s, end_z := zl.getLastD 0 } :: assignZ (some zl) rest

/-- Embeds `gen_fitting_pockets(mesh, z_bin_size)` (src/jigify.py lines
220-303).  The result lists the retained steps from the lowest
(board-level, widest) step to the tallest one. -/
def gen_fitting_pockets (g : Geom) (printable_threshold : ℚ) (mesh : List Pt3)
    (z_bin_size : ℚ) : List HullBin :=
  assignZ none (mk_hull_bins g printable_threshold (mk_z_bins mesh z_bin_size))

/-! ### A concrete executable geometry instance

For witnesses and counterexamples we instantiate the oracle on
axis-aligned squares centered at the origin: `sqHull` is the true
convex hull of any point set whose extreme points are the corners of
such a square, `shoelace` is the exact polygon area, and `bufferSq` is
the square outward offset (the polygon part of the shapely buffer,
whose rounded corners only add area on top of it). -/

/-- Shoelace running sum: cyclic cross products back to the first point. -/
def shoelaceSum (p0 : Pt2) : List Pt2 → ℚ
  | [] => 0
  | [p] => p.1 * p0.2 - p0.1 * p.2
  | p :: q :: rest => (p.1 * q.2 - q.1 * p.2) + shoelaceSum p0 (q :: rest)

/-- Exact area of a simple polygon given by its vertices (the value
computed by `tripy.earclip` + `tripy.calculate_total_area` on such a
polygon, and by shapely `.area`). -/
def shoelace (l : List Pt2) : ℚ :=
  match l with
  | [] => 0
  | p0 :: _ => |shoelaceSum p0 l| / 2

/-- Bounding centered square of a point set: the convex hull whenever
the extreme points of the input are the corners of a centered
axis-aligned square. -/
def sqHull (pts : List Pt2) : List Pt2 :=
  let m := pts.foldl (fun acc p => max acc (max |p.1| |p.2|)) 0
  [(-m, -m), (m, -m), (m, m), (-m, m)]

/-- Rational sign. -/
def qsgn (x : ℚ) : ℚ := if 0 < x then 1 else if x < 0 then -1 else 0

/-- Outward square offset by `d`: each vertex of a centered axis-aligned
square moves out by `d` in both coordinates. -/
def bufferSq (pts : List Pt2) (d : ℚ) : List Pt2 :=
  pts.map fun p => (p.1 + d * qsgn p.1, p.2 + d * qsgn p.2)

/-- The concrete geometry instance on centered axis-aligned squares. -/
def sqGeom : Geom := ⟨sqHull, shoelace, bufferSq⟩

/-- A centered square of side 1 (area 1). -/
def sq1 : List Pt2 := [(-1/2, -1/2), (1/2, -1/2), (1/2, 1/2), (-1/2, 1/2)]

/-! ### Configuration resolver embedding (src/jigconfig.py)

TOML scalar values are modelled by `Val`; TOML tables and the Python
dictionaries built by `get_ref_info` are modelled by association lists,
which preserve both key lookup and the insertion/iteration order that
the Python validation loops rely on.  Failures (`raise ValueError`)
become `Except.error` carrying the message text. -/

/-- A TOML scalar value as used by the configuration tree. -/
inductive Val
  | num (q : ℚ)
  | str (s : String)
  | bool (b : Bool)
deriving DecidableEq

/-- Python truthiness of a scalar, as tested by `if this_fp[force_smd]:`
(src/jigconfig.py line 172). -/
def Val.truthy : Val → Bool
  | .num q => decide (q ≠ 0)
  | .str s => decide (s ≠ "")
  | .bool b => b

/-- Numeric content of a scalar (the Python code only ever does
arithmetic on numbers). -/
def Val.asNum : Val → ℚ
  | .num q => q
  | _ => 0

/-- One entry of the `fp_map` dictionary built by `get_ref_info`
(src/jigify.py lines 138-144): through-hole flag, the refs using the
footprint, and the `alias`, `display_name` and `force_smd` slots that
`jigconfig.load` fills in (initially `None`, `None`, `False`). -/
structure FpInfo where
  is_th : Bool
  refs : List String
  alias? : Option String
  display_name : Option Val
  force_smd : Val
deriving DecidableEq

/-- `valid_shell_types` (src/jigconfig.py line 10).  The reserved
"tight" variant is absent, which is how `load` rejects it at the
global scope. -/
def valid_shell_types : List String := ["wiggle", "fitting", "fitting_flower", "courtyard"]

/-- `inheritable_footprint_keys` (src/jigconfig.py lines 64-75). -/
def inheritable_footprint_keys : List String :=
  ["shell_type", "shell_gap", "shell_thickness", "shell_wrapper_thickness",
   "shell_wrapper_height", "insertion_direction", "shell_clearance_from_pcb",
   "corner_cut_width", "min_petal_length", "corner_cut_depth", "force_smd"]

/-- `valid_footprint_keys` (src/jigconfig.py line 76). -/
def valid_footprint_keys : List String :=
  ["kicad_footprint", "display_name"] ++ inheritable_footprint_keys

/-- `TH_ref_params` (src/jigconfig.py lines 26-35): the per-ref keys
filled from the footprint entry when the ref does not set them. -/
def TH_ref_params : List String :=
  ["kicad_footprint", "force_smd", "shell_type", "shell_wrapper_thickness",
   "shell_wrapper_height", "insertion_direction", "corner_cut_width",
   "min_petal_length", "corner_cut_depth"]

/-- `TH_ref_params2` (src/jigconfig.py line 36): the per-ref signed
delta keys, defaulted to 0. -/
def TH_ref_params2 : List String :=
  ["delta_shell_gap", "delta_shell_thickness", "delta_shell_clearance_from_pcb"]

/-- Embeds the global shell type validation of `load`
(src/jigconfig.py lines 139-141).  The Python message also prints the
list of recognized values. -/
def validate_shell_type (shell_type : String) : Except String Unit :=
  if valid_shell_types.contains shell_type then .ok ()
  else .error s!"Bad value TH.component_shell.shell_type={shell_type}. Recognized values are:"

/-- Replace the `fp_map` entry for key `kfp` (Python dictionary item
assignment). -/
def updateFp (fm : List (String × FpInfo)) (kfp : String) (f : FpInfo → FpInfo) :
    List (String × FpInfo) :=
  fm.map fun kv => if kv.1 = kfp then (kv.1, f kv.2) else kv

/-- Embeds the unknown-key loop at the end of each footprint entry
validation (src/jigconfig.py lines 177-179). -/
def checkKeys (fm : List (String × FpInfo)) (al : String)
    (this_fp : List (String × Val)) : Except String (List (String × FpInfo)) :=
  match this_fp.find? (fun kv => !(valid_footprint_keys.contains kv.1)) with
  | some kv => .error s!"footprint.{al}.{kv.1} is not a recognized setting."
  | none => .ok fm

/-- Embeds one iteration of the footprint-entry validation loop of
`load` (src/jigconfig.py lines 155-179) for the entry
`cfg[footprint][al] = this_fp`, updating `fp_map` exactly as the Python
code does (display name, alias, and on through-hole footprints the
`force_smd` value).  A non-string `kicad_footprint` value is modelled
as the empty string, which is never a footprint name, matching the
Python behaviour of failing the `kfp not in fp_map.keys()` test. -/
def checkFpEntry (fm : List (String × FpInfo)) (al : String)
    (this_fp : List (String × Val)) : Except String (List (String × FpInfo)) :=
  match List.lookup "kicad_footprint" this_fp with
  | none => .error s!"footprint.{al} needs a kicad_footprint"
  | some kfpv =>
    let kfp := match kfpv with | .str s => s | _ => ""
    match List.lookup kfp fm with
    | none => .error s!"Invalid value footprint.{al}.kicad_footprint={kfp} . No such footprint on the board."
    | some info =>
      if info.alias?.isSome then
        .error s!"More than one aliases specified for kicad footprint {kfp}. Please check"
      else
        let dn : Val := match List.lookup "display_name" this_fp with
          | some d => d
          | none => .str kfp
        let fm1 := updateFp fm kfp fun i => { i with display_name := some dn, alias? := some al }
        match List.lookup "force_smd" this_fp with
        | some v =>
          if !info.is_th then
            if v.truthy then
              .error s!"footprint.{al}.force_smd is not supported for SMD component"
            else checkKeys fm1 al this_fp
          else checkKeys (updateFp fm1 kfp fun i => { i with force_smd := v }) al this_fp
        | none => checkKeys fm1 al this_fp

/-- Embeds the footprint validation loop of `load`
(src/jigconfig.py lines 154-179) over all entries of
`cfg[footprint]`. -/
def validate_footprints (cfg_footprint : List (String × List (String × Val)))
    (fm : List (String × FpInfo)) : Except String (List (String × FpInfo)) :=
  cfg_footprint.foldlM (fun acc p => checkFpEntry acc p.1 p.2) fm

/-- Embeds the `TH_ref_params` fill loop of `load`
(src/jigconfig.py lines 237-239): any parameter the ref entry does not
set is copied from the resolved footprint entry.  (After footprint
default propagation every such key is present on the footprint entry;
the `getD` default models the otherwise-impossible `KeyError`.) -/
def fill_params (fpcfg : List (String × Val)) (params : List String)
    (rc : List (String × Val)) : List (String × Val) :=
  params.foldl (fun rc param =>
    if (List.lookup param rc).isSome then rc
    else rc ++ [(param, (List.lookup param fpcfg).getD (Val.num 0))]) rc

/-- Embeds the `TH_ref_params2` fill loop of `load`
(src/jigconfig.py lines 240-242): missing delta keys default to 0. -/
def fill_zero (params : List String) (rc : List (String × Val)) :
    List (String × Val) :=
  params.foldl (fun rc param =>
    if (List.lookup param rc).isSome then rc else rc ++ [(param, Val.num 0)]) rc

/-- Embeds the body of the per-ref resolution loop of `load`
(src/jigconfig.py lines 225-242) for one through-hole ref: check a
declared `kicad_footprint` against the board footprint, default the
display name to the ref, inherit `TH_ref_params` from the footprint
entry `fpcfg`, and default the `TH_ref_params2` deltas to 0. -/
def resolve_one_ref (refName footprint : String)
    (ref_entry? : Option (List (String × Val))) (fpcfg : List (String × Val)) :
    Except String (List (String × Val)) :=
  let check : Except String (List (String × Val)) := match ref_entry? with
    | some rc =>
      match List.lookup "kicad_footprint" rc with
      | some v =>
        if v ≠ Val.str footprint then
          .error s!"TH.{refName}.kicad_footprint cannot deviate from {footprint} specified in board file!"
        else .ok rc
      | none => .ok rc
    | none => .ok []
  match check with
  | .error e => .error e
  | .ok ref_cfg =>
    let rc1 := if (List.lookup "display_name" ref_cfg).isSome then ref_cfg
      else ref_cfg ++ [("display_name", Val.str refName)]
    .ok (fill_zero TH_ref_params2 (fill_params fpcfg TH_ref_params rc1))

/-- Embeds `expand_refs(name_list, ref_map, fp_map)`
(src/jigconfig.py lines 93-104).  Python returns `list(set(full))`
(the distinct elements, in unspecified order); this is modelled by
`dedup`, which keeps the first occurrence of each element. -/
def expand_refs (name_list ref_names : List String)
    (fm : List (String × FpInfo)) : Except String (List String) :=
  match name_list.foldlM (fun full name =>
      if ref_names.contains name then Except.ok (full ++ [name])
      else match List.lookup name fm with
        | some info => Except.ok (full ++ info.refs)
        | none => Except.error s!"{name} is not a valid ref/footprint name")
      ([] : List String) with
  | .error e => .error e
  | .ok full => .ok full.dedup

/-- Embeds the inclusion/exclusion logic of `load`
(src/jigconfig.py lines 244-254): a non-empty
`refs_process_only_these` list replaces the through-hole ref list by
its expansion (failing on entries that are not processable
through-hole refs); otherwise a non-empty `refs_do_not_process` list
is expanded and removed (`list.remove`, modelled by `List.erase`). -/
def apply_ref_filters (process_only do_not_process ref_names : List String)
    (fm : List (String × FpInfo)) (th_ref_list : List String) :
    Except String (List String) :=
  if 0 < process_only.length then
    match expand_refs process_only ref_names fm with
    | .error e => .error e
    | .ok rtp_list =>
      match rtp_list.find? (fun r => !(th_ref_list.contains r)) with
      | some rtp => .error s!"{rtp} is not a though hole footprint, and cannot be processed (reason: included in refs_process_only_these)"
      | none => .ok rtp_list
  else if 0 < do_not_process.length then
    match expand_refs do_not_process ref_names fm with
    | .error e => .error e
    | .ok xs => .ok (xs.foldl (fun l r => l.erase r) th_ref_list)
  else .ok th_ref_list

/-- Key of a Python dictionary that (through the `enumerate` slip in
the SMD expansion loop) can be either an integer index or a string
field name. -/
inductive PKey
  | idx (n : Nat)
  | name (s : String)
deriving DecidableEq

/-- Lookup in a mixed-key table. -/
def lookupP (k : PKey) (t : List (PKey × Val)) : Option Val :=
  (t.find? fun kv => decide (kv.1 = k)).map fun kv => kv.2

/-- The `[SMD]` section of the built-in default configuration
(src/jigconfig.py lines 554-565): `clearance_from_shells = 0.5`,
`gap_from_shells = 0.5`. -/
def smd_defaults : List (String × Val) :=
  [("clearance_from_shells", Val.num (1/2)), ("gap_from_shells", Val.num (1/2))]

/-- Replace the SMD table of `ref` (Python item assignment). -/
def updateSMD (acc : List (String × List (PKey × Val))) (ref : String)
    (tbl : List (PKey × Val)) : List (String × List (PKey × Val)) :=
  acc.map fun kv => if kv.1 = ref then (kv.1, tbl) else kv

/-- Embeds the SMD tree expansion of `load` (src/jigconfig.py lines
280-287).  For a ref without an entry, the defaults are deep-copied
(field names and values).  For a ref with an existing entry the Python
code iterates `enumerate(default_cfg[SMD])`, so `key` is the integer
index 0,1,... and `value` is the field NAME; the loop therefore adds
entries under integer keys whose values are the field name strings,
and never fills the missing named fields. -/
def expand_smd_tree (default_smd : List (String × Val)) (smd_ref_list : List String)
    (cfg_smd : List (String × List (PKey × Val))) :
    List (String × List (PKey × Val)) :=
  smd_ref_list.foldl (fun acc ref =>
    match List.lookup ref acc with
    | some tbl =>
      let tbl2 := default_smd.enum.foldl (fun t kv =>
        let key := PKey.idx kv.1
        let value := Val.str kv.2.1
        if (lookupP key t).isSome then t else t ++ [(key, value)]) tbl
      updateSMD acc ref tbl2
    | none => acc ++ [(ref, default_smd.map fun kv => (PKey.name kv.1, kv.2))]) cfg_smd

/-- Embeds the effective per-ref value emitted by jigify
(src/jigify.py lines 886-891 and 932-939):
`Effective_X_For_ref = X_For_alias + Delta_X_For_ref`, where the base
comes from the resolved footprint entry and the delta from the
resolved ref entry. -/
def effective_delta_value (fpcfg resolved_ref : List (String × Val))
    (base delta : String) : ℚ :=
  ((List.lookup base fpcfg).getD (Val.num 0)).asNum +
    ((List.lookup delta resolved_ref).getD (Val.num 0)).asNum

/-! ### Groove placement embedding (src/jigify.py module level) -/

/-- Squared Euclidean distance. -/
def sqDist (a b : Pt2) : ℚ := (a.1 - b.1) ^ 2 + (a.2 - b.2) ^ 2

/-- Modelled from the spec: `edge_cuts.compute_grooves` is called by
src/jigify.py line 1118 but edge_cuts.py is not under src/.  Per spec
section 4.4, groove placement samples the tessellated board outline at
its feature points (modelled here as the outline polygon vertices),
merges samples closer than the configured minimum spacing into one
groove, and a spacing of zero means one continuous lip along the whole
outline (modelled as keeping every outline vertex). -/
def compute_grooves_model (outline : List Pt2) (spacing : ℚ) : List Pt2 :=
  if spacing = 0 then outline
  else outline.foldl (fun acc p =>
    if acc.any (fun q => decide (sqDist q p < spacing ^ 2)) then acc
    else acc ++ [p]) []

/-- Embeds src/jigify.py line 1118:
`groove_lines = edge_cuts.compute_grooves(arc_resolution, pcb_filled_shapes[0], groove_size)`.
The groove computation receives only the outline and the spacing; the
forced groove coordinates of the configuration are not passed to it. -/
def groove_points (arc_resolution : ℚ) (outline : List Pt2) (groove_size : ℚ) :
    List Pt2 :=
  compute_grooves_model outline groove_size

/-- Embeds src/jigify.py lines 561-574: the configured
`holder.forced_grooves` coordinates are appended to the mounting hole
list (`mounting_holes += forced_pcb_supports`), which later feeds the
Delaunay support mesh anchors, not the groove computation. -/
def mounting_holes_with_forced (mounting_holes forced_pcb_supports : List Pt2) :
    List Pt2 :=
  mounting_holes ++ forced_pcb_supports

/-! ### List and order helper lemmas -/

theorem headD_mem {l : List ℚ} (h : l ≠ []) : l.headD 0 ∈ l := by
  cases l with
  | nil => exact absurd rfl h
  | cons a t => simp

theorem getLastD_eq_q (l : List ℚ) : l.getLastD 0 = l.getLast?.getD 0 := by
  cases l with
  | nil => rfl
  | cons a t => rw [List.getLastD_eq_getLast?]

theorem getLastD_mem {l : List ℚ} (h : l ≠ []) : l.getLastD 0 ∈ l := by
  rw [getLastD_eq_q]
  rcases hl : l.getLast? with _ | a
  · simp [List.getLast?_eq_none_iff] at hl; exact absurd hl h
  · simpa using List.mem_of_mem_getLast? hl

theorem headD_append {l1 l2 : List ℚ} (h : l1 ≠ []) :
    (l1 ++ l2).headD 0 = l1.headD 0 := by
  cases l1 with
  | nil => exact absurd rfl h
  | cons a t => simp

theorem getLastD_append {l1 l2 : List ℚ} (h : l2 ≠ []) :
    (l1 ++ l2).getLastD 0 = l2.getLastD 0 := by
  rw [getLastD_eq_q, getLastD_eq_q, List.getLast?_append_of_ne_nil _ h]

theorem sorted_headD_le {l : List ℚ} (hs : List.Pairwise (· ≤ ·) l) :
    ∀ a ∈ l, l.headD 0 ≤ a := by
  cases l with
  | nil => simp
  | cons x t =>
    intro a ha
    rcases List.mem_cons.mp ha with rfl | hat
    · simp
    · simpa using (List.pairwise_cons.mp hs).1 a hat

theorem sorted_le_getLastD {l : List ℚ} (hs : List.Pairwise (· ≤ ·) l) :
    ∀ a ∈ l, a ≤ l.getLastD 0 := by
  induction l with
  | nil => simp
  | cons x t ih =>
    intro a ha
    rcases List.mem_cons.mp ha with rfl | hat
    · cases t with
      | nil => simp
      | cons y s =>
        have h1 := (List.pairwise_cons.mp hs).1
        have h2 := ih (List.pairwise_cons.mp hs).2 y (by simp)
        calc a ≤ y := h1 y (by simp)
          _ ≤ (y :: s).getLastD 0 := h2
          _ = (a :: y :: s).getLastD 0 := by
                rw [getLastD_eq_q, getLastD_eq_q]; simp
    · cases t with
      | nil => simp at hat
      | cons y s =>
        have h2 := ih (List.pairwise_cons.mp hs).2 a hat
        calc a ≤ (y :: s).getLastD 0 := h2
          _ = (x :: y :: s).getLastD 0 := by
                rw [getLastD_eq_q, getLastD_eq_q]; simp

theorem desc_le_headD {l : List ℚ} (hd : List.Pairwise (fun a b => b ≤ a) l) :
    ∀ a ∈ l, a ≤ l.headD 0 := by
  cases l with
  | nil => simp
  | cons x t =>
    intro a ha
    rcases List.mem_cons.mp ha with rfl | hat
    · simp
    · simpa using (List.pairwise_cons.mp hd).1 a hat

theorem desc_getLastD_le {l : List ℚ} (hd : List.Pairwise (fun a b => b ≤ a) l) :
    ∀ a ∈ l, l.getLastD 0 ≤ a := by
  induction l with
  | nil => simp
  | cons x t ih =>
    intro a ha
    rcases List.mem_cons.mp ha with rfl | hat
    · cases t with
      | nil => simp
      | cons y s =>
        have h1 := (List.pairwise_cons.mp hd).1
        have h2 := ih (List.pairwise_cons.mp hd).2 y (by simp)
        calc (a :: y :: s).getLastD 0 = (y :: s).getLastD 0 := by
                rw [getLastD_eq_q, getLastD_eq_q]; simp
          _ ≤ y := h2
          _ ≤ a := h1 y (by simp)
    · cases t with
      | nil => simp at hat
      | cons y s =>
        have h2 := ih (List.pairwise_cons.mp hd).2 a hat
        calc (x :: y :: s).getLastD 0 = (y :: s).getLastD 0 := by
                rw [getLastD_eq_q, getLastD_eq_q]; simp
          _ ≤ a := h2

/-! ### Facts about the Z ordering `descZ` -/

theorem descZ_pairwise (mesh : List Pt3) :
    List.Pairwise (fun a b => b ≤ a) (descZ mesh) := by
  unfold descZ
  rw [List.pairwise_reverse]
  exact List.sorted_insertionSort (· ≤ ·) _

theorem descZ_mem {mesh : List Pt3} {a : ℚ} :
    a ∈ descZ mesh ↔ a ∈ mesh.map (fun p => p.2.2) := by
  unfold descZ
  rw [List.mem_reverse,
    (List.perm_insertionSort (· ≤ ·) ((mesh.map fun p => p.2.2).dedup)).mem_iff,
    List.mem_dedup]

theorem descZ_ne_nil {mesh : List Pt3} (h : mesh ≠ []) : descZ mesh ≠ [] := by
  intro hd
  rcases mesh with _ | ⟨p, t⟩
  · exact h rfl
  · have : p.2.2 ∈ descZ (p :: t) := descZ_mem.mpr (by simp)
    rw [hd] at this
    simp at this

theorem descZ_length (mesh : List Pt3) :
    (descZ mesh).length = ((mesh.map fun p => p.2.2).dedup).length := by
  unfold descZ
  rw [List.length_reverse,
    (List.perm_insertionSort (· ≤ ·) ((mesh.map fun p => p.2.2).dedup)).length_eq]

/-! ### Invariants of the Z-binning fold -/

/-- Concatenation of the z_lists of a reversed bin accumulator: the
Z values already distributed into bins, in processing order. -/
def flatJ (l : List ZBin) : List ℚ := (l.reverse.map ZBin.z_list).flatten

theorem zbinStep_flatJ (zbs : ℚ) (mesh : List Pt3) (acc : List ZBin) (z : ℚ)
    (h : acc ≠ []) : flatJ (zbinStep zbs mesh acc z) = flatJ acc ++ [z] := by
  rcases acc with _ | ⟨last, rest⟩
  · exact absurd rfl h
  · unfold zbinStep flatJ
    by_cases hc : last.start_z - z < zbs <;> simp [hc]

theorem zbinStep_ne_nil (zbs : ℚ) (mesh : List Pt3) (acc : List ZBin) (z : ℚ)
    (h : acc ≠ []) : zbinStep zbs mesh acc z ≠ [] := by
  rcases acc with _ | ⟨last, rest⟩
  · exact absurd rfl h
  · unfold zbinStep
    by_cases hc : last.start_z - z < zbs <;> simp [hc]

theorem zbin_foldl_flatJ (zbs : ℚ) (mesh : List Pt3) :
    ∀ (zs : List ℚ) (acc : List ZBin), acc ≠ [] →
      flatJ (zs.foldl (zbinStep zbs mesh) acc) = flatJ acc ++ zs := by
  intro zs
  induction zs with
  | nil => intro acc _; simp
  | cons z t ih =>
    intro acc h
    rw [List.foldl_cons, ih _ (zbinStep_ne_nil zbs mesh acc z h),
      zbinStep_flatJ zbs mesh acc z h]
    simp

theorem zbin_foldl_ne_nil (zbs : ℚ) (mesh : List Pt3) :
    ∀ (zs : List ℚ) (acc : List ZBin), acc ≠ [] →
      zs.foldl (zbinStep zbs mesh) acc ≠ [] := by
  intro zs
  induction zs with
  | nil => intro acc h; simpa using h
  | cons z t ih =>
    intro acc h
    rw [List.foldl_cons]
    exact ih _ (zbinStep_ne_nil zbs mesh acc z h)

theorem zbinStep_zlists (zbs : ℚ) (mesh : List Pt3) (acc : List ZBin) (z : ℚ)
    (h : ∀ b ∈ acc, b.z_list ≠ []) :
    ∀ b ∈ zbinStep zbs mesh acc z, b.z_list ≠ [] := by
  rcases acc with _ | ⟨last, rest⟩
  · simp [zbinStep]
  · unfold zbinStep
    by_cases hc : last.start_z - z < zbs <;> simp only [hc, if_true, if_false]
    · intro b hb
      rcases List.mem_cons.mp hb with rfl | hbr
      · simp
      · exact h b (List.mem_cons_of_mem _ hbr)
    · intro b hb
      rcases List.mem_cons.mp hb with rfl | hbr
      · simp
      · exact h b hbr

theorem zbin_foldl_zlists (zbs : ℚ) (mesh : List Pt3) :
    ∀ (zs : List ℚ) (acc : List ZBin), (∀ b ∈ acc, b.z_list ≠ []) →
      ∀ b ∈ zs.foldl (zbinStep zbs mesh) acc, b.z_list ≠ [] := by
  intro zs
  induction zs with
  | nil => intro acc h; simpa using h
  | cons z t ih =>
    intro acc h
    rw [List.foldl_cons]
    exact ih _ (zbinStep_zlists zbs mesh acc z h)

theorem zbinStep_length (zbs : ℚ) (mesh : List Pt3) (acc : List ZBin) (z : ℚ) :
    (zbinStep zbs mesh acc z).length ≤ acc.length + 1 := by
  rcases acc with _ | ⟨last, rest⟩
  · simp [zbinStep]
  · unfold zbinStep
    by_cases hc : last.start_z - z < zbs <;> simp [hc]

theorem zbin_foldl_length (zbs : ℚ) (mesh : List Pt3) :
    ∀ (zs : List ℚ) (acc : List ZBin),
      (zs.foldl (zbinStep zbs mesh) acc).length ≤ acc.length + zs.length := by
  intro zs
  induction zs with
  | nil => intro acc; simp
  | cons z t ih =>
    intro acc
    rw [List.foldl_cons]
    calc (t.foldl (zbinStep zbs mesh) (zbinStep zbs mesh acc z)).length ≤
        (zbinStep zbs mesh acc z).length + t.length := ih _
      _ ≤ (acc.length + 1) + t.length := by
          exact Nat.add_le_add_right (zbinStep_length zbs mesh acc z) _
      _ = acc.length + (z :: t).length := by simp; omega

/-! ### Invariants of the hull accumulation fold -/

/-- Concatenation of the z_lists of the hull accumulator (which is kept
in reverse construction order): the Z values distributed so far, in
processing order. -/
def flatH (l : List HullBin) : List ℚ := (l.reverse.map HullBin.z_list).flatten

theorem hullStep_flatH (g : Geom) (th : ℚ) (acc : List HullBin) (zb : ZBin) :
    flatH (hullStep g th acc zb) = flatH acc ++ zb.z_list := by
  rcases acc with _ | ⟨hb, rest⟩
  · simp [hullStep, flatH]
  · unfold hullStep flatH
    by_cases hc : hb.area + 1 <
        g.area (g.convexHull ((zb.verts.map fun p => (p.1, p.2.1)) ++ hb.hull)) <;>
      simp [hc]

theorem hullStep_ne_nil (g : Geom) (th : ℚ) (acc : List HullBin) (zb : ZBin) :
    hullStep g th acc zb ≠ [] := by
  rcases acc with _ | ⟨hb, rest⟩
  · simp [hullStep]
  · unfold hullStep
    by_cases hc : hb.area + 1 <
        g.area (g.convexHull ((zb.verts.map fun p => (p.1, p.2.1)) ++ hb.hull)) <;>
      simp [hc]

theorem hull_foldl_flatH (g : Geom) (th : ℚ) :
    ∀ (zbins : List ZBin) (acc : List HullBin),
      flatH (zbins.foldl (hullStep g th) acc) =
        flatH acc ++ (zbins.map ZBin.z_list).flatten := by
  intro zbins
  induction zbins with
  | nil => intro acc; simp
  | cons zb t ih =>
    intro acc
    rw [List.foldl_cons, ih _, hullStep_flatH]
    simp

theorem hull_foldl_ne_nil (g : Geom) (th : ℚ) :
    ∀ (zbins : List ZBin) (acc : List HullBin), acc ≠ [] →
      zbins.foldl (hullStep g th) acc ≠ [] := by
  intro zbins
  induction zbins with
  | nil => intro acc h; simpa using h
  | cons zb t ih =>
    intro acc _
    rw [List.foldl_cons]
    exact ih _ (hullStep_ne_nil g th acc zb)

theorem mk_hull_bins_ne_nil (g : Geom) (th : ℚ) {zbins : List ZBin}
    (h : zbins ≠ []) : mk_hull_bins g th zbins ≠ [] := by
  rcases zbins with _ | ⟨zb, t⟩
  · exact absurd rfl h
  · unfold mk_hull_bins
    rw [List.foldl_cons]
    exact hull_foldl_ne_nil g th t _ (hullStep_ne_nil g th [] zb)

theorem hullStep_zlists (g : Geom) (th : ℚ) (acc : List HullBin) (zb : ZBin)
    (hz : zb.z_list ≠ []) (h : ∀ hb ∈ acc, hb.z_list ≠ []) :
    ∀ hb ∈ hullStep g th acc zb, hb.z_list ≠ [] := by
  rcases acc with _ | ⟨hb0, rest⟩
  · simpa [hullStep] using hz
  · unfold hullStep
    by_cases hc : hb0.area + 1 <
        g.area (g.convexHull ((zb.verts.map fun p => (p.1, p.2.1)) ++ hb0.hull)) <;>
      simp only [hc, if_true, if_false]
    · intro hb hbm
      rcases List.mem_cons.mp hbm with rfl | hbm2
      · simpa using hz
      · exact h hb hbm2
    · intro hb hbm
      rcases List.mem_cons.mp hbm with rfl | hbm2
      · simp only []
        intro habs
        exact hz (List.append_eq_nil.mp habs).2
      · exact h hb (List.mem_cons_of_mem _ hbm2)

theorem hull_foldl_zlists (g : Geom) (th : ℚ) :
    ∀ (zbins : List ZBin) (acc : List HullBin),
      (∀ zb ∈ zbins, zb.z_list ≠ []) → (∀ hb ∈ acc, hb.z_list ≠ []) →
      ∀ hb ∈ zbins.foldl (hullStep g th) acc, hb.z_list ≠ [] := by
  intro zbins
  induction zbins with
  | nil => intro acc _ h; simpa using h
  | cons zb t ih =>
    intro acc hzb h
    rw [List.foldl_cons]
    exact ih _ (fun b hb => hzb b (List.mem_cons_of_mem _ hb))
      (hullStep_zlists g th acc zb (hzb zb (by simp)) h)

theorem hullStep_length (g : Geom) (th : ℚ) (acc : List HullBin) (zb : ZBin) :
    (hullStep g th acc zb).length ≤ acc.length + 1 := by
  rcases acc with _ | ⟨hb, rest⟩
  · simp [hullStep]
  · unfold hullStep
    by_cases hc : hb.area + 1 <
        g.area (g.convexHull ((zb.verts.map fun p => (p.1, p.2.1)) ++ hb.hull)) <;>
      simp [hc]

theorem hull_foldl_length (g : Geom) (th : ℚ) :
    ∀ (zbins : List ZBin) (acc : List HullBin),
      (zbins.foldl (hullStep g th) acc).length ≤ acc.length + zbins.length := by
  intro zbins
  induction zbins with
  | nil => intro acc; simp
  | cons zb t ih =>
    intro acc
    rw [List.foldl_cons]
    calc (t.foldl (hullStep g th) (hullStep g th acc zb)).length ≤
        (hullStep g th acc zb).length + t.length := ih _
      _ ≤ (acc.length + 1) + t.length :=
          Nat.add_le_add_right (hullStep_length g th acc zb) _
      _ = acc.length + (zb :: t).length := by simp; omega

theorem hullStep_chain (g : Geom) (th : ℚ) (acc : List HullBin) (zb : ZBin)
    (h : List.Chain' (fun a b => b.area ≤ a.area) acc) :
    List.Chain' (fun a b => b.area ≤ a.area) (hullStep g th acc zb) := by
  rcases acc with _ | ⟨hb, rest⟩
  · simp [hullStep]
  · unfold hullStep
    by_cases hc : hb.area + 1 <
        g.area (g.convexHull ((zb.verts.map fun p => (p.1, p.2.1)) ++ hb.hull)) <;>
      simp only [hc, if_true, if_false]
    · exact List.Chain'.cons (by linarith) h
    · rcases List.chain'_cons'.mp h with ⟨hhead, htail⟩
      exact List.chain'_cons'.mpr ⟨fun y hy => hhead y hy, htail⟩

theorem hull_foldl_chain (g : Geom) (th : ℚ) :
    ∀ (zbins : List ZBin) (acc : List HullBin),
      List.Chain' (fun a b => b.area ≤ a.area) acc →
      List.Chain' (fun a b => b.area ≤ a.area) (zbins.foldl (hullStep g th) acc) := by
  intro zbins
  induction zbins with
  | nil => intro acc h; simpa using h
  | cons zb t ih =>
    intro acc h
    rw [List.foldl_cons]
    exact ih _ (hullStep_chain g th acc zb h)

theorem hullStep_hull_inv (g : Geom) (th : ℚ) (acc : List HullBin) (zb : ZBin)
    (h : ∀ hb ∈ acc, hb.hull = expand_small_hole g th hb.rawHull (some hb.area)) :
    ∀ hb ∈ hullStep g th acc zb,
      hb.hull = expand_small_hole g th hb.rawHull (some hb.area) := by
  rcases acc with _ | ⟨hb0, rest⟩
  · simp [hullStep]
  · unfold hullStep
    by_cases hc : hb0.area + 1 <
        g.area (g.convexHull ((zb.verts.map fun p => (p.1, p.2.1)) ++ hb0.hull)) <;>
      simp only [hc, if_true, if_false]
    · intro hb hbm
      rcases List.mem_cons.mp hbm with rfl | hbm2
      · simp
      · exact h hb hbm2
    · intro hb hbm
      rcases List.mem_cons.mp hbm with rfl | hbm2
      · simpa using h hb0 (by simp)
      · exact h hb (List.mem_cons_of_mem _ hbm2)

theorem hull_foldl_hull_inv (g : Geom) (th : ℚ) :
    ∀ (zbins : List ZBin) (acc : List HullBin),
      (∀ hb ∈ acc, hb.hull = expand_small_hole g th hb.rawHull (some hb.area)) →
      ∀ hb ∈ zbins.foldl (hullStep g th) acc,
        hb.hull = expand_small_hole g th hb.rawHull (some hb.area) := by
  intro zbins
  induction zbins with
  | nil => intro acc h; simpa using h
  | cons zb t ih =>
    intro acc h
    rw [List.foldl_cons]
    exact ih _ (hullStep_hull_inv g th acc zb h)

/-! ### Facts about the final start_z / end_z assignment -/

theorem assignZ_length (p : Option (List ℚ)) (l : List HullBin) :
    (assignZ p l).length = l.length := by
  induction l generalizing p with
  | nil => rfl
  | cons hb rest ih => simp [assignZ, ih]

theorem assignZ_ne_nil {l : List HullBin} (h : l ≠ []) (p : Option (List ℚ)) :
    assignZ p l ≠ [] := by
  intro habs
  have := assignZ_length p l
  rw [habs] at this
  exact h (List.length_eq_zero.mp this.symm)

theorem assignZ_map_area (p : Option (List ℚ)) (l : List HullBin) :
    (assignZ p l).map HullBin.area = l.map HullBin.area := by
  induction l generalizing p with
  | nil => rfl
  | cons hb rest ih => simp [assignZ, ih]

theorem assignZ_map_end (p : Option (List ℚ)) (l : List HullBin) :
    (assignZ p l).map HullBin.end_z =
      l.map fun hb => (hb.z_list.insertionSort (· ≤ ·)).getLastD 0 := by
  induction l generalizing p with
  | nil => rfl
  | cons hb rest ih => simp [assignZ, ih]

theorem assignZ_mem (p : Option (List ℚ)) (l : List HullBin) :
    ∀ hb ∈ assignZ p l, ∃ hb0 ∈ l, hb.hull = hb0.hull ∧ hb.rawHull = hb0.rawHull ∧
      hb.area = hb0.area ∧ hb.z_list = hb0.z_list.insertionSort (· ≤ ·) ∧
      hb.end_z = hb.z_list.getLastD 0 := by
  induction l generalizing p with
  | nil => simp [assignZ]
  | cons hb0 rest ih =>
    intro hb hmem
    simp only [assignZ] at hmem
    rcases List.mem_cons.mp hmem with rfl | h2
    · exact ⟨hb0, by simp, by simp, by simp, by simp, by simp, by simp⟩
    · rcases ih _ hb h2 with ⟨b0, hb0m, hrest⟩
      exact ⟨b0, List.mem_cons_of_mem _ hb0m, hrest⟩

theorem assignZ_head_start (pz : List ℚ) (l : List HullBin) :
    ∀ b ∈ (assignZ (some pz) l).head?, b.start_z = pz.getLastD 0 := by
  cases l with
  | nil => simp [assignZ]
  | cons hb rest => simp [assignZ]

theorem assignZ_chain (p : Option (List ℚ)) (l : List HullBin) :
    List.Chain' (fun a b => b.start_z = a.end_z) (assignZ p l) := by
  induction l generalizing p with
  | nil => simp [assignZ]
  | cons hb rest ih =>
    simp only [assignZ]
    refine List.chain'_cons'.mpr ⟨?_, ih _⟩
    intro y hy
    have := assignZ_head_start (hb.z_list.insertionSort (· ≤ ·)) rest y hy
    simpa using this

/-! ### Assembled facts about `mk_z_bins` -/

theorem zbinStep_seed (mesh : List Pt3) (zbs z0 : ℚ) (hz : 0 < zbs) :
    zbinStep zbs mesh [⟨z0, [], []⟩] z0 =
      [⟨z0, [z0], mesh.filter fun p => decide (p.2.2 = z0)⟩] := by
  simp [zbinStep, sub_self, hz]

theorem mk_z_bins_eq {mesh : List Pt3} {zbs z0 : ℚ} {zs : List ℚ}
    (hdz : descZ mesh = z0 :: zs) (hz : 0 < zbs) :
    mk_z_bins mesh zbs =
      (zs.foldl (zbinStep zbs mesh)
        [⟨z0, [z0], mesh.filter fun p => decide (p.2.2 = z0)⟩]).reverse := by
  unfold mk_z_bins
  rw [hdz]
  show (List.foldl (zbinStep zbs mesh) [⟨z0, [], []⟩] (z0 :: zs)).reverse = _
  rw [List.foldl_cons, zbinStep_seed mesh zbs z0 hz]

theorem mk_z_bins_flatten {mesh : List Pt3} {zbs : ℚ} (hm : mesh ≠ [])
    (hz : 0 < zbs) :
    ((mk_z_bins mesh zbs).map ZBin.z_list).flatten = descZ mesh := by
  obtain ⟨z0, zs, hdz⟩ : ∃ z0 zs, descZ mesh = z0 :: zs := by
    rcases h : descZ mesh with _ | ⟨z0, zs⟩
    · exact absurd h (descZ_ne_nil hm)
    · exact ⟨z0, zs, rfl⟩
  rw [mk_z_bins_eq hdz hz, hdz]
  have := zbin_foldl_flatJ zbs mesh zs
    [⟨z0, [z0], mesh.filter fun p => decide (p.2.2 = z0)⟩] (by simp)
  unfold flatJ at this
  rw [this]
  simp

theorem mk_z_bins_ne_nil {mesh : List Pt3} {zbs : ℚ} (hm : mesh ≠ [])
    (hz : 0 < zbs) : mk_z_bins mesh zbs ≠ [] := by
  obtain ⟨z0, zs, hdz⟩ : ∃ z0 zs, descZ mesh = z0 :: zs := by
    rcases h : descZ mesh with _ | ⟨z0, zs⟩
    · exact absurd h (descZ_ne_nil hm)
    · exact ⟨z0, zs, rfl⟩
  rw [mk_z_bins_eq hdz hz]
  simpa using zbin_foldl_ne_nil zbs mesh zs _ (by simp)

theorem mk_z_bins_zlists {mesh : List Pt3} {zbs : ℚ} (hz : 0 < zbs) :
    ∀ b ∈ mk_z_bins mesh zbs, b.z_list ≠ [] := by
  rcases hdz : descZ mesh with _ | ⟨z0, zs⟩
  · unfold mk_z_bins; rw [hdz]; simp
  · rw [mk_z_bins_eq hdz hz]
    intro b hb
    exact zbin_foldl_zlists zbs mesh zs _ (by simp) b (List.mem_reverse.mp hb)

theorem mk_z_bins_length {mesh : List Pt3} {zbs : ℚ} (hz : 0 < zbs) :
    (mk_z_bins mesh zbs).length ≤ (descZ mesh).length := by
  rcases hdz : descZ mesh with _ | ⟨z0, zs⟩
  · unfold mk_z_bins; rw [hdz]; simp
  · rw [mk_z_bins_eq hdz hz, List.length_reverse]
    calc (zs.foldl (zbinStep zbs mesh)
          [⟨z0, [z0], mesh.filter fun p => decide (p.2.2 = z0)⟩]).length ≤
        1 + zs.length := zbin_foldl_length zbs mesh zs _
      _ = (z0 :: zs).length := by simp; omega

/-! ### Assembled facts about the full step-well pipeline -/

theorem mk_hull_bins_flatten (g : Geom) (th : ℚ) {mesh : List Pt3} {zbs : ℚ}
    (hm : mesh ≠ []) (hz : 0 < zbs) :
    (((mk_hull_bins g th (mk_z_bins mesh zbs)).reverse).map HullBin.z_list).flatten =
      descZ mesh := by
  have h := hull_foldl_flatH g th (mk_z_bins mesh zbs) []
  unfold mk_hull_bins
  unfold flatH at h
  rw [h]
  simpa using mk_z_bins_flatten hm hz

theorem mk_hull_bins_zlists (g : Geom) (th : ℚ) {mesh : List Pt3} {zbs : ℚ}
    (hz : 0 < zbs) :
    ∀ hb ∈ mk_hull_bins g th (mk_z_bins mesh zbs), hb.z_list ≠ [] := by
  exact hull_foldl_zlists g th (mk_z_bins mesh zbs) [] (mk_z_bins_zlists hz) (by simp)

theorem sortedPerm_ne_nil {l : List ℚ} (h : l ≠ []) :
    l.insertionSort (· ≤ ·) ≠ [] := by
  intro habs
  have := (List.perm_insertionSort (· ≤ ·) l).length_eq
  rw [habs] at this
  exact h (List.length_eq_zero.mp this.symm)

/-- C10: for every non-empty mesh the retained steps tile the Z extent
contiguously: the first (board-level) step starts at the smallest mesh
Z, every later step starts at the largest constituent Z of the
previous step (its end_z), each step ends at the largest Z of its own
sorted z_list, and the last step ends at the largest mesh Z. -/
theorem c10_theorem (g : Geom) (printable_threshold : ℚ) (mesh : List Pt3)
    (z_bin_size : ℚ) (hm : mesh ≠ []) (hz : 0 < z_bin_size) :
    gen_fitting_pockets g printable_threshold mesh z_bin_size ≠ [] ∧
    (∀ hb ∈ (gen_fitting_pockets g printable_threshold mesh z_bin_size).head?,
      hb.start_z ∈ mesh.map (fun p => p.2.2) ∧
      ∀ q ∈ mesh.map (fun p => p.2.2), hb.start_z ≤ q) ∧
    List.Chain' (fun a b => b.start_z = a.end_z)
      (gen_fitting_pockets g printable_threshold mesh z_bin_size) ∧
    (∀ hb ∈ gen_fitting_pockets g printable_threshold mesh z_bin_size,
      hb.z_list ≠ [] ∧ List.Pairwise (· ≤ ·) hb.z_list ∧
      hb.end_z = hb.z_list.getLastD 0) ∧
    (∀ hb ∈ (gen_fitting_pockets g printable_threshold mesh z_bin_size).getLast?,
      hb.end_z ∈ mesh.map (fun p => p.2.2) ∧
      ∀ q ∈ mesh.map (fun p => p.2.2), q ≤ hb.end_z) := by
  have hzb := mk_z_bins_ne_nil hm hz
  have hA : mk_hull_bins g printable_threshold (mk_z_bins mesh z_bin_size) ≠ [] :=
    mk_hull_bins_ne_nil g printable_threshold hzb
  have hB := mk_hull_bins_flatten g printable_threshold hm hz
  have hC : ∀ hb ∈ mk_hull_bins g printable_threshold (mk_z_bins mesh z_bin_size),
      hb.z_list ≠ [] := mk_hull_bins_zlists g printable_threshold hz
  have hpair := descZ_pairwise mesh
  have hdzne := descZ_ne_nil hm
  refine ⟨?_, ?_, ?_, ?_, ?_⟩
  · exact assignZ_ne_nil hA none
  · -- head: start_z is the smallest mesh Z
    obtain ⟨h1, t, hhb⟩ : ∃ h1 t,
        mk_hull_bins g printable_threshold (mk_z_bins mesh z_bin_size) = h1 :: t := by
      rcases hh : mk_hull_bins g printable_threshold (mk_z_bins mesh z_bin_size) with _ | ⟨h1, t⟩
      · exact absurd hh hA
      · exact ⟨h1, t, rfl⟩
    have hckne : h1.z_list ≠ [] := hC h1 (by rw [hhb]; simp)
    have hdecomp : descZ mesh = ((t.reverse.map HullBin.z_list).flatten) ++ h1.z_list := by
      rw [← hB, hhb]
      simp
    have hgmin_mem : (descZ mesh).getLastD 0 ∈ h1.z_list := by
      rw [hdecomp, getLastD_append hckne]
      exact getLastD_mem hckne
    have hgmin_le : ∀ a ∈ descZ mesh, (descZ mesh).getLastD 0 ≤ a :=
      desc_getLastD_le hpair
    have hsck : List.Pairwise (· ≤ ·) (h1.z_list.insertionSort (· ≤ ·)) :=
      List.sorted_insertionSort (· ≤ ·) h1.z_list
    have hperm := List.perm_insertionSort (· ≤ ·) h1.z_list
    have hsne : h1.z_list.insertionSort (· ≤ ·) ≠ [] := sortedPerm_ne_nil hckne
    have hs_min : ∀ a ∈ h1.z_list.insertionSort (· ≤ ·),
        (h1.z_list.insertionSort (· ≤ ·)).headD 0 ≤ a := sorted_headD_le hsck
    have hs_mem : (h1.z_list.insertionSort (· ≤ ·)).headD 0 ∈ h1.z_list :=
      hperm.mem_iff.mp (headD_mem hsne)
    have hseq : (h1.z_list.insertionSort (· ≤ ·)).headD 0 = (descZ mesh).getLastD 0 := by
      refine le_antisymm ?_ ?_
      · exact hs_min _ (hperm.mem_iff.mpr hgmin_mem)
      · refine hgmin_le _ ?_
        rw [hdecomp]
        exact List.mem_append_right _ hs_mem
    unfold gen_fitting_pockets
    rw [hhb]
    simp only [assignZ, Option.mem_def, List.head?_cons, Option.some.injEq]
    rintro hb rfl
    constructor
    · show (h1.z_list.insertionSort (· ≤ ·)).headD 0 ∈ mesh.map (fun p => p.2.2)
      rw [hseq]
      exact descZ_mem.mp (getLastD_mem hdzne)
    · intro q hq
      show (h1.z_list.insertionSort (· ≤ ·)).headD 0 ≤ q
      rw [hseq]
      exact hgmin_le q (descZ_mem.mpr hq)
  · exact assignZ_chain none _
  · -- each step: nonempty sorted z_list, end_z is its largest entry
    intro hb hmem
    rcases assignZ_mem none _ hb hmem with ⟨hb0, h0m, _, _, _, hzl, hend⟩
    have h0ne : hb0.z_list ≠ [] := hC hb0 h0m
    refine ⟨?_, ?_, hend⟩
    · rw [hzl]; exact sortedPerm_ne_nil h0ne
    · rw [hzl]; exact List.sorted_insertionSort (· ≤ ·) hb0.z_list
  · -- last: end_z is the largest mesh Z
    obtain ⟨x, xs, hr⟩ : ∃ x xs,
        (mk_hull_bins g printable_threshold (mk_z_bins mesh z_bin_size)).reverse = x :: xs := by
      rcases hh : (mk_hull_bins g printable_threshold (mk_z_bins mesh z_bin_size)).reverse
          with _ | ⟨x, xs⟩
      · rw [List.reverse_eq_nil_iff] at hh
        exact absurd hh hA
      · exact ⟨x, xs, rfl⟩
    have hxmem : x ∈ mk_hull_bins g printable_threshold (mk_z_bins mesh z_bin_size) := by
      rw [← List.mem_reverse, hr]
      simp
    have hxne : x.z_list ≠ [] := hC x hxmem
    have hdecomp : descZ mesh = x.z_list ++ (xs.map HullBin.z_list).flatten := by
      rw [← hB, hr]
      simp
    have hgmax_mem : (descZ mesh).headD 0 ∈ x.z_list := by
      rw [hdecomp, headD_append hxne]
      exact headD_mem hxne
    have hgmax_ge : ∀ a ∈ descZ mesh, a ≤ (descZ mesh).headD 0 := desc_le_headD hpair
    have hsck : List.Pairwise (· ≤ ·) (x.z_list.insertionSort (· ≤ ·)) :=
      List.sorted_insertionSort (· ≤ ·) x.z_list
    have hperm := List.perm_insertionSort (· ≤ ·) x.z_list
    have hsne : x.z_list.insertionSort (· ≤ ·) ≠ [] := sortedPerm_ne_nil hxne
    have ht_mem : (x.z_list.insertionSort (· ≤ ·)).getLastD 0 ∈ x.z_list :=
      hperm.mem_iff.mp (getLastD_mem hsne)
    have ht_max : ∀ a ∈ x.z_list.insertionSort (· ≤ ·),
        a ≤ (x.z_list.insertionSort (· ≤ ·)).getLastD 0 := sorted_le_getLastD hsck
    have hteq : (x.z_list.insertionSort (· ≤ ·)).getLastD 0 = (descZ mesh).headD 0 := by
      refine le_antisymm ?_ ?_
      · refine hgmax_ge _ ?_
        rw [hdecomp]
        exact List.mem_append_left _ ht_mem
      · exact ht_max _ (hperm.mem_iff.mpr hgmax_mem)
    -- identify the end_z of the last retained step
    have hlast : (gen_fitting_pockets g printable_threshold mesh z_bin_size).getLast?.map
        HullBin.end_z = some ((x.z_list.insertionSort (· ≤ ·)).getLastD 0) := by
      rw [← List.getLast?_map]
      unfold gen_fitting_pockets
      rw [assignZ_map_end, List.getLast?_map, ← List.head?_reverse, hr]
      simp
    intro hb hmem
    rw [Option.mem_def] at hmem
    rw [hmem] at hlast
    simp only [Option.map_some', Option.some.injEq] at hlast
    constructor
    · rw [hlast, hteq]
      exact descZ_mem.mp (headD_mem hdzne)
    · intro q hq
      rw [hlast, hteq]
      exact hgmax_ge q (descZ_mem.mpr hq)

/-- C2: for every non-empty mesh, the step-well synthesizer retains at
most as many steps as there are distinct mesh Z values, and walking
the retained steps from the tallest one down to the board-level one
(the reverse of the returned order) the recorded hull area of each
step is greater than or equal to that of the previous, shallower
step. -/
theorem c2_theorem (g : Geom) (printable_threshold : ℚ) (mesh : List Pt3)
    (z_bin_size : ℚ) (hm : mesh ≠ []) (hz : 0 < z_bin_size) :
    (gen_fitting_pockets g printable_threshold mesh z_bin_size).length ≤
      ((mesh.map fun p => p.2.2).dedup).length ∧
    List.Chain' (fun a b => a.area ≤ b.area)
      (gen_fitting_pockets g printable_threshold mesh z_bin_size).reverse := by
  constructor
  · unfold gen_fitting_pockets
    rw [assignZ_length]
    calc (mk_hull_bins g printable_threshold (mk_z_bins mesh z_bin_size)).length ≤
        0 + (mk_z_bins mesh z_bin_size).length :=
          hull_foldl_length g printable_threshold (mk_z_bins mesh z_bin_size) []
      _ ≤ (descZ mesh).length := by simpa using mk_z_bins_length hz
      _ = _ := descZ_length mesh
  · rw [List.chain'_reverse]
    have hchain : List.Chain' (fun a b => b.area ≤ a.area)
        (mk_hull_bins g printable_threshold (mk_z_bins mesh z_bin_size)) :=
      hull_foldl_chain g printable_threshold (mk_z_bins mesh z_bin_size) [] (by simp)
    have h1 : List.Chain' (fun x y => y ≤ x)
        ((mk_hull_bins g printable_threshold (mk_z_bins mesh z_bin_size)).map
          HullBin.area) := (List.chain'_map HullBin.area).mpr hchain
    rw [← assignZ_map_area none] at h1
    exact (List.chain'_map HullBin.area).mp h1

/-- C6 (amended): during the top-down construction of the step-well,
hole-safety expansion is applied to the hull of every retained step
whose recorded area is below the configured minimum printable area
(the expanded hull then feeds the hulls of the lower steps), not only
to the lowest step; a retained step whose area meets the minimum keeps
its unexpanded convex hull. -/
theorem c6_theorem (g : Geom) (printable_threshold : ℚ) (mesh : List Pt3)
    (z_bin_size : ℚ) :
    ∀ hb ∈ gen_fitting_pockets g printable_threshold mesh z_bin_size,
      (printable_threshold ≤ hb.area → hb.hull = hb.rawHull) ∧
      (hb.area < printable_threshold →
        hb.hull = expand_small_hole g printable_threshold hb.rawHull (some hb.area)) := by
  intro hb hmem
  unfold gen_fitting_pockets at hmem
  rcases assignZ_mem none _ hb hmem with ⟨hb0, h0m, hhull, hraw, harea, _, _⟩
  have hinv := hull_foldl_hull_inv g printable_threshold (mk_z_bins mesh z_bin_size)
    [] (by simp) hb0 h0m
  constructor
  · intro hge
    rw [hhull, hraw, hinv]
    rw [harea] at hge
    simp [expand_small_hole, not_lt.mpr hge]
  · intro _
    rw [hhull, hraw, harea, hinv]

/-! ### Behaviour of the offset search (claim C1) -/

theorem offset_search_le_area (g : Geom) (m : ℚ) (poly : List Pt2) :
    ∀ (l : List Nat) (op : List Pt2),
      offset_search g m poly l = some op → m ≤ g.area op := by
  intro l
  induction l with
  | nil => intro op h; simp [offset_search] at h
  | cons k rest ih =>
    intro op h
    simp only [offset_search] at h
    split at h
    · cases h
      assumption
    · exact ih op h

theorem offset_search_mem_isSome (g : Geom) (m : ℚ) (poly : List Pt2) :
    ∀ (l : List Nat) (k : Nat), k ∈ l →
      m ≤ g.area (g.buffer poly (((k : ℚ) + 1) / 10)) →
      (offset_search g m poly l).isSome := by
  intro l
  induction l with
  | nil => simp
  | cons j rest ih =>
    intro k hk hcond
    simp only [offset_search]
    split
    · simp
    · rcases List.mem_cons.mp hk with rfl | hk2
      · rename_i hns
        exact absurd hcond hns
      · exact ih k hk2 hcond

theorem offset_search_eq_none (g : Geom) (m : ℚ) (poly : List Pt2) :
    ∀ (l : List Nat),
      (∀ k ∈ l, g.area (g.buffer poly (((k : ℚ) + 1) / 10)) < m) →
      offset_search g m poly l = none := by
  intro l
  induction l with
  | nil => intro _; simp [offset_search]
  | cons j rest ih =>
    intro h
    simp only [offset_search]
    rw [if_neg (not_le.mpr (h j (by simp)))]
    exact ih fun k hk => h k (List.mem_cons_of_mem _ hk)

/-- C1 (amended): if the polygon area already meets `min_area`,
`expand_small_hole` returns the polygon unchanged.  Otherwise it tries
the ten offsets 0.1, 0.2, ..., 1.0 in order: if some offset in that
fixed range brings the area up to `min_area`, the first such offset
polygon is returned and its area meets `min_area`; if no offset within
the searched range reaches `min_area`, the input polygon is returned
unchanged (with its area still below `min_area`). -/
theorem c1_theorem (g : Geom) (min_area : ℚ) (poly : List Pt2) (area? : Option ℚ) :
    (min_area ≤ area?.getD (g.area poly) →
      expand_small_hole g min_area poly area? = poly) ∧
    (area?.getD (g.area poly) < min_area →
      (∃ k ∈ List.range 10, min_area ≤ g.area (g.buffer poly (((k : ℚ) + 1) / 10))) →
      min_area ≤ g.area (expand_small_hole g min_area poly area?)) ∧
    (area?.getD (g.area poly) < min_area →
      (∀ k ∈ List.range 10, g.area (g.buffer poly (((k : ℚ) + 1) / 10)) < min_area) →
      expand_small_hole g min_area poly area? = poly) := by
  have harea : (match area? with | none => g.area poly | some a => a) =
      area?.getD (g.area poly) := by cases area? <;> rfl
  refine ⟨?_, ?_, ?_⟩
  · intro h
    simp only [expand_small_hole, harea]
    rw [if_neg (not_lt.mpr h)]
  · intro hlt ⟨k, hk, hcond⟩
    simp only [expand_small_hole, harea]
    rw [if_pos hlt]
    rcases hs : offset_search g min_area poly (List.range 10) with _ | op
    · have := offset_search_mem_isSome g min_area poly (List.range 10) k hk hcond
      rw [hs] at this
      simp at this
    · exact offset_search_le_area g min_area poly (List.range 10) op hs
  · intro hlt hall
    simp only [expand_small_hole, harea]
    rw [if_pos hlt, offset_search_eq_none g min_area poly (List.range 10) hall]

/-! ### Concrete data for witnesses and counterexamples -/

/-- A mesh with two distinct Z levels: a side-1 square of vertices at
Z = 2 on top of a side-4 square of vertices at Z = 0. -/
def twoStepMesh : List Pt3 :=
  [(-1/2, -1/2, 2), (1/2, -1/2, 2), (1/2, 1/2, 2), (-1/2, 1/2, 2),
   (-2, -2, 0), (2, -2, 0), (2, 2, 0), (-2, 2, 0)]

/-- The steps the embedded `gen_fitting_pockets` retains on
`twoStepMesh` with minimum printable area 1.5 and z_bin_size 0.5: the
top step (recorded area 1, below the minimum) was expanded from the
side-1 square to the side-1.4 square, the board-level step (area 16)
was kept unexpanded. -/
def twoStepBins : List HullBin :=
  [⟨[(-2, -2), (2, -2), (2, 2), (-2, 2)], [(-2, -2), (2, -2), (2, 2), (-2, 2)],
    16, [0], 0, 0⟩,
   ⟨[(-7/10, -7/10), (7/10, -7/10), (7/10, 7/10), (-7/10, 7/10)],
    [(-1/2, -1/2), (1/2, -1/2), (1/2, 1/2), (-1/2, 1/2)], 1, [2], 0, 2⟩]

set_option maxHeartbeats 2000000 in
theorem twoStepMesh_eval :
    gen_fitting_pockets sqGeom (3/2) twoStepMesh (1/2) = twoStepBins := by
  norm_num [gen_fitting_pockets, mk_z_bins, descZ, List.dedup, List.insertionSort,
    List.orderedInsert, zbinStep, List.filter, mk_hull_bins, hullStep, sqGeom, sqHull,
    shoelace, shoelaceSum, bufferSq, qsgn, expand_small_hole, offset_search, List.range,
    List.range.loop, assignZ, twoStepBins, twoStepMesh, abs]

/-- Witness for C2 on the concrete two-level mesh. -/
theorem c2_witness :
    (gen_fitting_pockets sqGeom (3/2) twoStepMesh (1/2)).length ≤
      ((twoStepMesh.map fun p => p.2.2).dedup).length ∧
    List.Chain' (fun a b => a.area ≤ b.area)
      (gen_fitting_pockets sqGeom (3/2) twoStepMesh (1/2)).reverse :=
  c2_theorem sqGeom (3/2) twoStepMesh (1/2) (by simp [twoStepMesh]) (by norm_num)

/-- Witness for C10 on the concrete two-level mesh. -/
theorem c10_witness :
    gen_fitting_pockets sqGeom (3/2) twoStepMesh (1/2) ≠ [] ∧
    (∀ hb ∈ (gen_fitting_pockets sqGeom (3/2) twoStepMesh (1/2)).head?,
      hb.start_z ∈ twoStepMesh.map (fun p => p.2.2) ∧
      ∀ q ∈ twoStepMesh.map (fun p => p.2.2), hb.start_z ≤ q) ∧
    List.Chain' (fun a b => b.start_z = a.end_z)
      (gen_fitting_pockets sqGeom (3/2) twoStepMesh (1/2)) ∧
    (∀ hb ∈ gen_fitting_pockets sqGeom (3/2) twoStepMesh (1/2),
      hb.z_list ≠ [] ∧ List.Pairwise (· ≤ ·) hb.z_list ∧
      hb.end_z = hb.z_list.getLastD 0) ∧
    (∀ hb ∈ (gen_fitting_pockets sqGeom (3/2) twoStepMesh (1/2)).getLast?,
      hb.end_z ∈ twoStepMesh.map (fun p => p.2.2) ∧
      ∀ q ∈ twoStepMesh.map (fun p => p.2.2), q ≤ hb.end_z) :=
  c10_theorem sqGeom (3/2) twoStepMesh (1/2) (by simp [twoStepMesh]) (by norm_num)

/-- C6 counterexample: on `twoStepMesh` the claim that all steps above
the lowest one are returned without hole-safety expansion is false:
the tallest retained step (recorded area 1 < 1.5) has an expanded
hull different from its raw convex hull. -/
theorem c6_counterexample :
    ¬ ∀ hb ∈ (gen_fitting_pockets sqGeom (3/2) twoStepMesh (1/2)).tail,
        hb.hull = hb.rawHull := by
  rw [twoStepMesh_eval]
  norm_num [twoStepBins]

/-- Witness for C6 (amended) on the concrete two-level mesh: the
board-level step meets the minimum printable area and keeps its raw
hull. -/
theorem c6_witness :
    (twoStepBins.headD default).hull = (twoStepBins.headD default).rawHull := by
  have h := c6_theorem sqGeom (3/2) twoStepMesh (1/2) (twoStepBins.headD default)
    (by rw [twoStepMesh_eval]; simp [twoStepBins])
  exact h.1 (by norm_num [twoStepBins])

/-- C1 counterexample: a polygon of area 1 with minimum printable area
100: growth is needed, but even the largest searched offset (1.0)
leaves the area below 100, so `expand_small_hole` returns the input
polygon and the returned area stays below the minimum. -/
theorem c1_counterexample :
    sqGeom.area sq1 < 100 ∧
    ¬ (100 : ℚ) ≤ sqGeom.area (expand_small_hole sqGeom 100 sq1 none) := by
  norm_num [expand_small_hole, offset_search, sqGeom, sqHull, shoelace, shoelaceSum,
    bufferSq, qsgn, sq1, List.range, List.range.loop, abs]

/-- Witness for C1 (amended): with minimum area 0.5 the polygon is
returned unchanged; with minimum area 2 the offset search succeeds (at
offset 0.3) and the returned area meets the minimum. -/
theorem c1_witness :
    expand_small_hole sqGeom (1/2) sq1 none = sq1 ∧
    (2 : ℚ) ≤ sqGeom.area (expand_small_hole sqGeom 2 sq1 none) := by
  constructor
  · exact (c1_theorem sqGeom (1/2) sq1 none).1
      (by norm_num [sqGeom, shoelace, shoelaceSum, sq1, abs])
  · exact (c1_theorem sqGeom 2 sq1 none).2.1
      (by norm_num [sqGeom, shoelace, shoelaceSum, sq1, abs])
      ⟨2, by norm_num,
        by norm_num [sqGeom, shoelace, shoelaceSum, bufferSq, qsgn, sq1, abs]⟩

/-! ### Association list and fill-loop lemmas (claim C7) -/

theorem lookup_append_some {p : String} {v : Val} {l1 : List (String × Val)}
    (l2 : List (String × Val)) (h : List.lookup p l1 = some v) :
    List.lookup p (l1 ++ l2) = some v := by
  induction l1 with
  | nil => simp [List.lookup] at h
  | cons kv t ih =>
    rcases kv with ⟨k, b⟩
    rw [List.cons_append, List.lookup_cons] at *
    cases hk : p == k
    · rw [hk] at h
      exact ih h
    · rw [hk] at h
      exact h

theorem lookup_append_none {p : String} {l1 : List (String × Val)}
    (l2 : List (String × Val)) (h : List.lookup p l1 = none) :
    List.lookup p (l1 ++ l2) = List.lookup p l2 := by
  induction l1 with
  | nil => simp
  | cons kv t ih =>
    rcases kv with ⟨k, b⟩
    rw [List.cons_append, List.lookup_cons] at *
    cases hk : p == k
    · rw [hk] at h
      exact ih h
    · rw [hk] at h
      simp at h

theorem lookup_single_self (p : String) (v : Val) :
    List.lookup p [(p, v)] = some v := by
  rw [List.lookup_cons, beq_self_eq_true]

theorem lookup_single_ne {p q : String} (v : Val) (h : p ≠ q) :
    List.lookup p [(q, v)] = none := by
  rw [List.lookup_cons, beq_eq_false_iff_ne.mpr h]
  rfl

theorem fill_params_cons (fpcfg : List (String × Val)) (q : String)
    (params : List String) (rc : List (String × Val)) :
    fill_params fpcfg (q :: params) rc =
      fill_params fpcfg params
        (if (List.lookup q rc).isSome then rc
         else rc ++ [(q, (List.lookup q fpcfg).getD (Val.num 0))]) := rfl

theorem fill_params_lookup_some (fpcfg : List (String × Val)) :
    ∀ (params : List String) (rc : List (String × Val)) (p : String) (v : Val),
      List.lookup p rc = some v →
      List.lookup p (fill_params fpcfg params rc) = some v := by
  intro params
  induction params with
  | nil => intro rc p v h; exact h
  | cons q t ih =>
    intro rc p v h
    rw [fill_params_cons]
    by_cases hq : (List.lookup q rc).isSome
    · rw [if_pos hq]; exact ih rc p v h
    · rw [if_neg hq]; exact ih _ p v (lookup_append_some _ h)

theorem fill_params_lookup_not_mem (fpcfg : List (String × Val)) :
    ∀ (params : List String) (rc : List (String × Val)) (p : String), p ∉ params →
      List.lookup p rc = none →
      List.lookup p (fill_params fpcfg params rc) = none := by
  intro params
  induction params with
  | nil => intro rc p _ h; exact h
  | cons q t ih =>
    intro rc p hp h
    have hpq : p ≠ q := fun habs => hp (habs ▸ List.mem_cons_self q t)
    have hpt : p ∉ t := fun habs => hp (List.mem_cons_of_mem _ habs)
    rw [fill_params_cons]
    by_cases hq : (List.lookup q rc).isSome
    · rw [if_pos hq]; exact ih rc p hpt h
    · rw [if_neg hq]
      refine ih _ p hpt ?_
      rw [lookup_append_none _ h, lookup_single_ne _ hpq]

theorem fill_params_lookup_mem (fpcfg : List (String × Val)) :
    ∀ (params : List String) (rc : List (String × Val)) (p : String), p ∈ params →
      List.lookup p rc = none →
      List.lookup p (fill_params fpcfg params rc) =
        some ((List.lookup p fpcfg).getD (Val.num 0)) := by
  intro params
  induction params with
  | nil => intro rc p hp; simp at hp
  | cons q t ih =>
    intro rc p hp h
    rw [fill_params_cons]
    by_cases hpq : p = q
    · subst hpq
      rw [if_neg (by simp [h]), ]
      refine fill_params_lookup_some fpcfg t _ p _ ?_
      rw [lookup_append_none _ h, lookup_single_self]
    · rcases List.mem_cons.mp hp with habs | hpt
      · exact absurd habs hpq
      · by_cases hq : (List.lookup q rc).isSome
        · rw [if_pos hq]; exact ih rc p hpt h
        · rw [if_neg hq]
          refine ih _ p hpt ?_
          rw [lookup_append_none _ h, lookup_single_ne _ hpq]

theorem fill_zero_eq_fill_params :
    ∀ (params : List String) (rc : List (String × Val)),
      fill_zero params rc = fill_params [] params rc := by
  intro params
  induction params with
  | nil => intro rc; rfl
  | cons q t ih =>
    intro rc
    rw [fill_params_cons]
    show fill_zero t _ = _
    rw [ih]
    rfl

theorem resolve_one_ref_ok {refName footprint : String}
    {orig fpcfg out : List (String × Val)}
    (hok : resolve_one_ref refName footprint (some orig) fpcfg = .ok out) :
    out = fill_zero TH_ref_params2 (fill_params fpcfg TH_ref_params
      (if (List.lookup "display_name" orig).isSome then orig
       else orig ++ [("display_name", Val.str refName)])) := by
  unfold resolve_one_ref at hok
  rcases hkf : List.lookup "kicad_footprint" orig with _ | v
  · simp only [hkf] at hok
    simpa using hok.symm
  · simp only [hkf] at hok
    by_cases hv : v = Val.str footprint
    · simp only [hv, ne_eq, not_true_eq_false, if_false, ite_false] at hok
      simp at hok
      exact hok.symm
    · simp only [ne_eq, hv, not_false_eq_true, if_true, ite_true] at hok
      simp at hok

/-- C7: after per-ref resolution, every field of `TH_ref_params` the
ref did not set explicitly equals the value stored on the resolved
footprint entry, every `TH_ref_params2` delta not set explicitly
defaults to 0, explicitly set entries are preserved (so enum fields
such as shell_type and insertion_direction take the per-ref override
when present and the footprint value otherwise), and the effective
numeric value emitted for the ref equals the footprint base value plus
the resolved signed delta (the declared delta, or 0 when absent). -/
theorem c7_theorem (refName footprint : String)
    (orig fpcfg out : List (String × Val))
    (hok : resolve_one_ref refName footprint (some orig) fpcfg = .ok out) :
    (∀ p ∈ TH_ref_params, List.lookup p orig = none →
      ∀ v, List.lookup p fpcfg = some v → List.lookup p out = some v) ∧
    (∀ p ∈ TH_ref_params2, List.lookup p orig = none →
      List.lookup p out = some (Val.num 0)) ∧
    (∀ p v, List.lookup p orig = some v → List.lookup p out = some v) ∧
    (∀ base delta, delta ∈ TH_ref_params2 → List.lookup delta orig = none →
      effective_delta_value fpcfg out base delta =
        ((List.lookup base fpcfg).getD (Val.num 0)).asNum) ∧
    (∀ base delta d, List.lookup delta orig = some (Val.num d) →
      effective_delta_value fpcfg out base delta =
        ((List.lookup base fpcfg).getD (Val.num 0)).asNum + d) := by
  have hout := resolve_one_ref_ok hok
  have hdn2 : ∀ p ∈ TH_ref_params2, p ∉ TH_ref_params ∧ p ≠ "display_name" := by decide
  have hdn1 : ∀ p ∈ TH_ref_params, p ≠ "display_name" := by decide
  -- lookup into the display-name-extended entry
  have hrc1_none : ∀ p, p ≠ "display_name" → List.lookup p orig = none →
      List.lookup p (if (List.lookup "display_name" orig).isSome then orig
        else orig ++ [("display_name", Val.str refName)]) = none := by
    intro p hp hnone
    by_cases hd : (List.lookup "display_name" orig).isSome
    · rw [if_pos hd]; exact hnone
    · rw [if_neg hd, lookup_append_none _ hnone, lookup_single_ne _ hp]
  have hrc1_some : ∀ p v, List.lookup p orig = some v →
      List.lookup p (if (List.lookup "display_name" orig).isSome then orig
        else orig ++ [("display_name", Val.str refName)]) = some v := by
    intro p v hsome
    by_cases hd : (List.lookup "display_name" orig).isSome
    · rw [if_pos hd]; exact hsome
    · rw [if_neg hd]; exact lookup_append_some _ hsome
  have part1 : ∀ p ∈ TH_ref_params, List.lookup p orig = none →
      ∀ v, List.lookup p fpcfg = some v → List.lookup p out = some v := by
    intro p hp hnone v hv
    rw [hout, fill_zero_eq_fill_params]
    refine fill_params_lookup_some [] TH_ref_params2 _ p v ?_
    have := fill_params_lookup_mem fpcfg TH_ref_params _ p hp
      (hrc1_none p (hdn1 p hp) hnone)
    rw [hv] at this
    exact this
  have part2 : ∀ p ∈ TH_ref_params2, List.lookup p orig = none →
      List.lookup p out = some (Val.num 0) := by
    intro p hp hnone
    rw [hout, fill_zero_eq_fill_params]
    have hnotin := (hdn2 p hp).1
    have hdn := (hdn2 p hp).2
    have h1 : List.lookup p (fill_params fpcfg TH_ref_params
        (if (List.lookup "display_name" orig).isSome then orig
         else orig ++ [("display_name", Val.str refName)])) = none :=
      fill_params_lookup_not_mem fpcfg TH_ref_params _ p hnotin
        (hrc1_none p hdn hnone)
    have := fill_params_lookup_mem [] TH_ref_params2 _ p hp h1
    simpa using this
  have part3 : ∀ p v, List.lookup p orig = some v → List.lookup p out = some v := by
    intro p v hsome
    rw [hout, fill_zero_eq_fill_params]
    exact fill_params_lookup_some [] TH_ref_params2 _ p v
      (fill_params_lookup_some fpcfg TH_ref_params _ p v (hrc1_some p v hsome))
  refine ⟨part1, part2, part3, ?_, ?_⟩
  · intro base delta hdelta hnone
    unfold effective_delta_value
    rw [part2 delta hdelta hnone]
    simp [Val.asNum]
  · intro base delta d hsome
    unfold effective_delta_value
    rw [part3 delta (Val.num d) hsome]
    simp [Val.asNum]

/-- The resolved footprint entry used in the C7 witness. -/
def c7fpcfg : List (String × Val) :=
  [("kicad_footprint", Val.str "K7"), ("display_name", Val.str "K7"),
   ("shell_type", Val.str "fitting"), ("shell_gap", Val.num (1/10)),
   ("shell_thickness", Val.num (6/5)), ("shell_wrapper_thickness", Val.num 0),
   ("shell_wrapper_height", Val.num 0), ("insertion_direction", Val.str "top"),
   ("shell_clearance_from_pcb", Val.num 1), ("corner_cut_width", Val.num (2/5)),
   ("min_petal_length", Val.num (2/5)), ("corner_cut_depth", Val.num (1/5)),
   ("force_smd", Val.bool false)]

/-- The per-ref config entry used in the C7 witness: an explicit
shell_type override plus an explicit delta_shell_gap. -/
def c7orig : List (String × Val) :=
  [("shell_type", Val.str "wiggle"), ("delta_shell_gap", Val.num (1/20))]

/-- Witness for C7 at a concrete ref resolution: the unset delta
defaults to 0, the explicit shell_type override is preserved, and the
effective shell gap is the footprint base plus the declared delta. -/
theorem c7_witness :
    List.lookup "delta_shell_thickness"
      ((resolve_one_ref "U7" "K7" (some c7orig) c7fpcfg).toOption.getD []) =
        some (Val.num 0) ∧
    List.lookup "insertion_direction"
      ((resolve_one_ref "U7" "K7" (some c7orig) c7fpcfg).toOption.getD []) =
        some (Val.str "top") ∧
    List.lookup "shell_type"
      ((resolve_one_ref "U7" "K7" (some c7orig) c7fpcfg).toOption.getD []) =
        some (Val.str "wiggle") ∧
    effective_delta_value c7fpcfg
      ((resolve_one_ref "U7" "K7" (some c7orig) c7fpcfg).toOption.getD [])
      "shell_gap" "delta_shell_gap" = 1/10 + 1/20 := by
  have h := c7_theorem "U7" "K7" c7orig c7fpcfg
    ((resolve_one_ref "U7" "K7" (some c7orig) c7fpcfg).toOption.getD []) rfl
  refine ⟨?_, ?_, ?_, ?_⟩
  · exact h.2.1 "delta_shell_thickness" (by decide) (by rfl)
  · exact h.1 "insertion_direction" (by decide) (by rfl) (Val.str "top") (by rfl)
  · exact h.2.2.1 "shell_type" (Val.str "wiggle") (by rfl)
  · have h5 := h.2.2.2.2 "shell_gap" "delta_shell_gap" (1/20) (by rfl)
    rw [h5]
    rfl

/-- The board-side footprint map used in the C3 counterexample: one
physical footprint without through-hole pads (SMD-only). -/
def c3fm : List (String × FpInfo) :=
  [("FPX", ⟨false, ["R1"], none, none, Val.bool false⟩)]

/-- The config footprint section used in the C3 counterexample: an
entry for the SMD-only footprint with an explicit force_smd = false. -/
def c3cfg : List (String × List (String × Val)) :=
  [("myfp", [("kicad_footprint", Val.str "FPX"), ("force_smd", Val.bool false)])]

/-- C3 counterexample: a footprint without through-hole pads whose
config entry sets force_smd = false explicitly passes footprint
validation; no configuration error naming the footprint is raised, so
loading does not fail on it. -/
theorem c3_counterexample : (validate_footprints c3cfg c3fm).isOk = true := by rfl

/-- C3 (amended): an explicit `force_smd` on a footprint without
through-hole pads is rejected (with an error naming the footprint)
only when the value is truthy; an explicit `force_smd = false` is
accepted silently. -/
theorem c3_theorem (al kfp : String) (refs : List String) (b : Bool) :
    (b = true →
      checkFpEntry [(kfp, ⟨false, refs, none, none, Val.bool false⟩)] al
        [("kicad_footprint", Val.str kfp), ("force_smd", Val.bool b)] =
        .error s!"footprint.{al}.force_smd is not supported for SMD component") ∧
    (b = false →
      (checkFpEntry [(kfp, ⟨false, refs, none, none, Val.bool false⟩)] al
        [("kicad_footprint", Val.str kfp), ("force_smd", Val.bool b)]).isOk = true) := by
  constructor
  · rintro rfl
    simp [checkFpEntry, List.lookup_cons, checkKeys, Val.truthy, valid_footprint_keys,
      inheritable_footprint_keys, lookup_single_self]
  · rintro rfl
    simp [checkFpEntry, List.lookup_cons, checkKeys, Val.truthy, valid_footprint_keys,
      inheritable_footprint_keys, lookup_single_self, Except.isOk, Except.toBool]

/-- Witness for C3 (amended): at the concrete SMD-only footprint,
force_smd = true is rejected naming the footprint and
force_smd = false is accepted. -/
theorem c3_witness :
    checkFpEntry [("FPY", ⟨false, ["R2"], none, none, Val.bool false⟩)] "fpy"
      [("kicad_footprint", Val.str "FPY"), ("force_smd", Val.bool true)] =
      .error "footprint.fpy.force_smd is not supported for SMD component" ∧
    (checkFpEntry [("FPY", ⟨false, ["R2"], none, none, Val.bool false⟩)] "fpy"
      [("kicad_footprint", Val.str "FPY"), ("force_smd", Val.bool false)]).isOk = true := by
  have h1 := c3_theorem "fpy" "FPY" ["R2"] true
  have h2 := c3_theorem "fpy" "FPY" ["R2"] false
  exact ⟨h1.1 rfl, h2.2 rfl⟩

/-- C9 counterexample: a configuration that declares the reserved
shell type "tight" at per-footprint scope (on a through-hole
footprint) passes footprint validation: only the key is checked
against `valid_footprint_keys`, the value is not validated, so the
configuration is not rejected at validation time. -/
theorem c9_counterexample :
    (validate_footprints
      [("fpa", [("kicad_footprint", Val.str "K1"), ("shell_type", Val.str "tight")])]
      [("K1", ⟨true, ["U7"], none, none, Val.bool false⟩)]).isOk = true := by rfl

/-- C9 (amended): the reserved shell type "tight" is rejected at
validation time only where the global TH.component_shell shell_type is
checked against `valid_shell_types`; the same value declared on a
per-footprint entry or a per-ref entry passes validation (and per-ref
resolution) untouched. -/
theorem c9_theorem :
    validate_shell_type "tight" =
      .error "Bad value TH.component_shell.shell_type=tight. Recognized values are:" ∧
    (validate_footprints
      [("fpb", [("kicad_footprint", Val.str "K2"), ("shell_type", Val.str "tight")])]
      [("K2", ⟨true, ["U8"], none, none, Val.bool false⟩)]).isOk = true ∧
    (resolve_one_ref "U8" "K2" (some [("shell_type", Val.str "tight")])
      [("shell_type", Val.str "fitting")]).isOk = true := by
  refine ⟨by rfl, by rfl, by rfl⟩

/-- C4: evaluation of the embedded SMD tree expansion at the failing
input: ref R1 already has an incomplete SMD entry that sets
clearance_from_shells but not gap_from_shells.  The code leaves
gap_from_shells unset and instead adds the integer-keyed entries
0 -> "clearance_from_shells" and 1 -> "gap_from_shells" (the
`enumerate` index/key mix-up), while the claim requires
gap_from_shells to be filled by name from the SMD default. -/
theorem c4_theorem :
    (List.lookup "R1" (expand_smd_tree smd_defaults ["R1"]
        [("R1", [(PKey.name "clearance_from_shells", Val.num (7/10))])])).map
      (fun tbl => (lookupP (PKey.name "gap_from_shells") tbl,
        lookupP (PKey.idx 0) tbl, lookupP (PKey.idx 1) tbl)) =
      some (none, some (Val.str "clearance_from_shells"),
        some (Val.str "gap_from_shells")) := by rfl

/-- The rectangular 10 x 5 board outline of the C5 scenario. -/
def rect10x5 : List Pt2 := [(0, 0), (10, 0), (10, 5), (0, 5)]

/-- The forced groove points of the C5 scenario: the midpoints of the
two short edges. -/
def c5forced : List Pt2 := [(0, 5/2), (10, 5/2)]

/-- C5: evaluation at the failing input.  With the 10 x 5 outline and
groove spacing 15, neither forced point appears among the groove
placement points (the groove computation never receives the forced
coordinates); the forced coordinates are appended to the mounting-hole
list (the Delaunay support-mesh anchors) instead. -/
theorem c5_theorem :
    ((0, 5/2) ∉ groove_points (1/10) rect10x5 15 ∧
      (10, 5/2) ∉ groove_points (1/10) rect10x5 15) ∧
    mounting_holes_with_forced [] c5forced = c5forced := by
  constructor
  · constructor <;>
      norm_num [groove_points, compute_grooves_model, rect10x5, sqDist, List.any]
  · rfl

/-- C8: whenever refs_process_only_these is non-empty, the processed
through-hole ref set is determined by its expansion alone; the
contents of refs_do_not_process have no effect on the result. -/
theorem c8_theorem (process_only d1 d2 ref_names : List String)
    (fm : List (String × FpInfo)) (th_ref_list : List String)
    (h : process_only ≠ []) :
    apply_ref_filters process_only d1 ref_names fm th_ref_list =
      apply_ref_filters process_only d2 ref_names fm th_ref_list := by
  have hl : 0 < process_only.length := List.length_pos.mpr h
  unfold apply_ref_filters
  rw [if_pos hl, if_pos hl]

/-- Witness for C8: the spec scenario, with both lists non-empty
versus with the exclusion list emptied. -/
theorem c8_witness :
    apply_ref_filters ["U1"] ["U2"] ["U1", "U2"]
      [("K1", ⟨true, ["U1", "U2"], none, none, Val.bool false⟩)] ["U1", "U2"] =
    apply_ref_filters ["U1"] [] ["U1", "U2"]
      [("K1", ⟨true, ["U1", "U2"], none, none, Val.bool false⟩)] ["U1", "U2"] :=
  c8_theorem ["U1"] ["U2"] [] ["U1", "U2"]
    [("K1", ⟨true, ["U1", "U2"], none, none, Val.bool false⟩)] ["U1", "U2"]
    (by simp)
